import Mathlib

/-!
Verification of the chunking / sanitizing / orchestration core of
`audiobook_creator.py` (a text-to-speech audiobook converter).

Strings are modelled as `List Char`; the Python functions
`clean_text_for_tts`, `smart_text_splitter`, the per-chunk synthesis loop of
`convert_large_text_to_speech` and the size-based strategy choice of `main`
are embedded as executable Lean functions.  The splitting `while` loop is
given explicit fuel; `none` models non-termination of the loop (the fuel
supplied by `smart_text_splitter` is shown sufficient whenever
`chunk_size ≥ 1`).
-/

namespace Audiobook

/-- The character whitelist of `re.sub(r'[^\w\s\.\,\!\?\;\:\-\'\"]', ' ', text)`:
word characters (alphanumeric or underscore), whitespace, and the fixed
punctuation set `. , ! ? ; : - ' "`. -/
def isWhitelisted (c : Char) : Bool :=
  c.isAlphanum || c = '_' || c.isWhitespace ||
    c = '.' || c = ',' || c = '!' || c = '?' || c = ';' || c = ':' ||
    c = '-' || c = Char.ofNat 39 || c = '"'

/-- First sanitising pass: every character outside the whitelist is replaced
by a single space (`re.sub(r'[^\w\s\.\,\!\?\;\:\-\'\"]', ' ', text)`). -/
def replaceBad (text : List Char) : List Char :=
  text.map (fun c => if isWhitelisted c then c else ' ')

/-- Scanner for `re.sub(r'\s+', ' ', text)`: replaces every maximal run of
whitespace by one space.  The flag records whether we are inside a run whose
single replacement space has already been emitted. -/
def collapseAux : List Char → Bool → List Char
  | [], _ => []
  | c :: rest, inRun =>
    if c.isWhitespace then
      if inRun then collapseAux rest true
      else ' ' :: collapseAux rest true
    else c :: collapseAux rest false

/-- `re.sub(r'\s+', ' ', text)`. -/
def collapseWS (text : List Char) : List Char :=
  collapseAux text false

/-- Word accumulator for Python `str.split()` (split on whitespace runs,
dropping empty pieces).  `acc` holds the current word, reversed. -/
def splitAux : List Char → List Char → List (List Char)
  | [], acc => if acc.isEmpty then [] else [acc.reverse]
  | c :: rest, acc =>
    if c.isWhitespace then
      if acc.isEmpty then splitAux rest []
      else acc.reverse :: splitAux rest []
    else splitAux rest (c :: acc)

/-- Python `text.split()`. -/
def pySplit (text : List Char) : List (List Char) :=
  splitAux text []

/-- Python `' '.join(words)`. -/
def joinSpace : List (List Char) → List Char
  | [] => []
  | [w] => w
  | w :: ws => w ++ ' ' :: joinSpace ws

/-- Python `text.strip()`: remove leading and trailing whitespace. -/
def pyStrip (text : List Char) : List Char :=
  ((text.dropWhile Char.isWhitespace).reverse.dropWhile Char.isWhitespace).reverse

/-- `clean_text_for_tts`: whitelist characters, collapse whitespace runs,
drop words longer than 50 characters, re-join with single spaces, strip. -/
def clean_text_for_tts (text : List Char) : List Char :=
  let t1 := replaceBad text
  let t2 := collapseWS t1
  let words := pySplit t2
  let cleaned_words := words.filter (fun w => w.length ≤ 50)
  pyStrip (joinSpace cleaned_words)

/-- The `sentence_endings` list of `smart_text_splitter`. -/
def sentence_endings : List (List Char) :=
  [['.', ' '], ['!', ' '], ['?', ' '], ['.', '\n'], ['!', '\n'], ['?', '\n']]

/-- `any(chunk_text[i:i+len(ending)] == ending for ending in sentence_endings)`:
whether some sentence-ending sequence occurs at index `i` of `chunk_text`. -/
def matchesAt (chunk_text : List Char) (i : Nat) : Bool :=
  sentence_endings.any (fun ending =>
    (chunk_text.drop i).take ending.length == ending)

/-- The backward scan `for i in range(len(chunk_text)-1, max(len(chunk_text)//2, 0), -1)`:
starting at index `i` and stopping once the index reaches `lo`, return
`some (i + 1)` for the first (largest) matching index, else `none`. -/
def backScanAux (chunk_text : List Char) (lo : Nat) : Nat → Option Nat
  | 0 => none
  | i + 1 =>
    if i + 1 ≤ lo then none
    else if matchesAt chunk_text (i + 1) then some (i + 2)
    else backScanAux chunk_text lo i

/-- The whole backward sentence-boundary scan of `smart_text_splitter`;
`some best_split` corresponds to Python's `best_split != -1`. -/
def backScan (chunk_text : List Char) : Option Nat :=
  backScanAux chunk_text (max (chunk_text.length / 2) 0) (chunk_text.length - 1)

/-- Lines 66-86 of `smart_text_splitter`: the chosen `best_split` for a full
window `chunk_text` (of length `chunk_size`): sentence boundary if found,
otherwise all but the last whitespace-separated word, otherwise a hard cut at
`chunk_size`. -/
def findBestSplit (chunk_text : List Char) (chunk_size : Nat) : Nat :=
  match backScan chunk_text with
  | some best_split => best_split
  | none =>
    let words := pySplit chunk_text
    if 1 < words.length then (joinSpace words.dropLast).length
    else chunk_size

/-- `while current_pos < len(text) and text[current_pos].isspace(): current_pos += 1`:
advance `pos` over the whitespace at the start of `text.drop pos`. -/
def skipWS (text : List Char) (pos : Nat) : Nat :=
  pos + ((text.drop pos).takeWhile Char.isWhitespace).length

/-- The `while current_pos < len(text)` loop of `smart_text_splitter`, with
explicit fuel; `none` models non-termination.  Each iteration either emits the
final chunk `text[current_pos:].strip()` (when the window reaches the end of
the text), or emits `text[current_pos:current_pos+best_split].strip()` and
advances past the split point and any following whitespace. -/
def splitLoop (text : List Char) (chunk_size : Nat) :
    Nat → Nat → List (List Char) → Option (List (List Char))
  | 0, _, _ => none
  | fuel + 1, current_pos, chunks =>
    if current_pos < text.length then
      if text.length ≤ current_pos + chunk_size then
        some (chunks ++ [pyStrip (text.drop current_pos)])
      else
        let chunk_text := (text.drop current_pos).take chunk_size
        let best_split := findBestSplit chunk_text chunk_size
        splitLoop text chunk_size fuel
          (skipWS text (current_pos + best_split))
          (chunks ++ [pyStrip ((text.drop current_pos).take best_split)])
    else some chunks

/-- `smart_text_splitter`: clean the text; if it fits in one chunk return it
as the single chunk, else run the splitting loop and filter out chunks that
are empty after stripping.  The fuel `length + 1` is sufficient whenever
`chunk_size ≥ 1` (each iteration advances the cursor). -/
def smart_text_splitter (text : List Char) (chunk_size : Nat) :
    Option (List (List Char)) :=
  let t := clean_text_for_tts text
  if t.length ≤ chunk_size then some [t]
  else
    (splitLoop t chunk_size (t.length + 1) 0 []).map
      (fun chunks => chunks.filter (fun c => !(pyStrip c).isEmpty))

/-- `chunk_audio = b''` followed by `chunk_audio += audio_piece` over the
fragments streamed for one chunk. -/
def synthChunkAudio (fragments : List (List Nat)) : List Nat :=
  fragments.foldl (fun chunk_audio piece => chunk_audio ++ piece) []

/-- The per-chunk loop of `convert_large_text_to_speech`: for each chunk in
order, the synthesis collaborator (`synth`, indexed by chunk position and fed
the chunk text) either returns its audio fragments or fails (`none`, the
`except` branch); on success the concatenated fragments are appended to
`audio_chunks`, on failure the chunk is skipped and the loop continues. -/
def processChunks (synth : Nat → List Char → Option (List (List Nat))) :
    List (List Char) → Nat → List (List Nat) → List (List Nat)
  | [], _, audio_chunks => audio_chunks
  | chunk :: rest, i, audio_chunks =>
    match synth i chunk with
    | some fragments =>
        processChunks synth rest (i + 1) (audio_chunks ++ [synthChunkAudio fragments])
    | none => processChunks synth rest (i + 1) audio_chunks

/-- `for audio_chunk in audio_chunks: final_audio.write(audio_chunk)`:
the bytes written to the output file. -/
def writeAudio (audio_chunks : List (List Nat)) : List Nat :=
  audio_chunks.foldl (fun final_audio chunk => final_audio ++ chunk) []

/-- The final output bytes of `convert_large_text_to_speech` for a given
chunk list and synthesis collaborator. -/
def convertOutput (synth : Nat → List Char → Option (List (List Nat)))
    (chunks : List (List Char)) : List Nat :=
  writeAudio (processChunks synth chunks 0 [])

/-- Number of successful chunks: `len(audio_chunks)` in the final report. -/
def successCount (synth : Nat → List Char → Option (List (List Nat)))
    (chunks : List (List Char)) : Nat :=
  (processChunks synth chunks 0 []).length

/-- Number of skipped chunks: those whose synthesis call failed. -/
def skippedCount (synth : Nat → List Char → Option (List (List Nat)))
    (chunks : List (List Char)) : Nat :=
  ((chunks.enum).filter (fun p => (synth p.1 p.2).isNone)).length

/-- The two conversion strategies of `main`. -/
inductive Strategy
  | smallFile
  | largeFile
deriving DecidableEq

/-- `main`'s strategy choice: `if text_length > 2000` (the raw file content
length) use the chunking pipeline, else the single-request conversion. -/
def chooseStrategy (content : List Char) : Strategy :=
  if 2000 < content.length then Strategy.largeFile else Strategy.smallFile

/-- The strategy rule as the specification states it (for comparison with
`chooseStrategy`): decide by the *sanitized* text length against the
small-file threshold 2000. -/
def chooseStrategySpecified (content : List Char) : Strategy :=
  if (clean_text_for_tts content).length ≤ 2000 then Strategy.smallFile
  else Strategy.largeFile

/-- Whitespace erasure; used to state which content the chunks preserve. -/
def eraseWS (l : List Char) : List Char :=
  l.filter (fun c => !c.isWhitespace)

/-- The 3000-character terminator-free input used for the splitting example:
`"abcd "` repeated 600 times. -/
def c10Input : List Char :=
  (List.replicate 600 ['a', 'b', 'c', 'd', ' ']).flatten

/-- A well-formed word list: every word is non-empty and whitespace-free
(this is what Python `str.split()` produces). -/
def goodWords (ws : List (List Char)) : Prop :=
  ∀ w ∈ ws, w ≠ [] ∧ ∀ c ∈ w, c.isWhitespace = false

/-- The surviving word list built inside `clean_text_for_tts` (after the
whitelist pass, whitespace collapsing, splitting, and the 50-character
length filter). -/
def keptWords (text : List Char) : List (List Char) :=
  (pySplit (collapseWS (replaceBad text))).filter (fun w => w.length ≤ 50)

/-! ### Whitespace collapsing (`re.sub(r'\s+', ' ', ...)`) -/

theorem collapseAux_nonws : ∀ (l : List Char), (∀ c ∈ l, c.isWhitespace = false) →
    ∀ b, collapseAux l b = l := by
  intro l
  induction l with
  | nil => intro _ b; rfl
  | cons c rest ih =>
    intro h b
    have hc : c.isWhitespace = false := h c (List.mem_cons_self c rest)
    simp only [collapseAux, hc, Bool.false_eq_true, if_false]
    rw [ih (fun d hd => h d (List.mem_cons_of_mem c hd)) false]

theorem collapseAux_append_nonws : ∀ (w z : List Char),
    (∀ c ∈ w, c.isWhitespace = false) →
    collapseAux (w ++ z) false = w ++ collapseAux z false := by
  intro w
  induction w with
  | nil => intro z _; rfl
  | cons c rest ih =>
    intro z h
    have hc : c.isWhitespace = false := h c (List.mem_cons_self c rest)
    simp only [List.cons_append, collapseAux, hc, Bool.false_eq_true, if_false,
      List.append_eq]
    rw [ih z (fun d hd => h d (List.mem_cons_of_mem c hd))]

theorem collapseAux_length_le : ∀ (l : List Char) (b : Bool),
    (collapseAux l b).length ≤ l.length := by
  intro l
  induction l with
  | nil => intro b; exact Nat.le_refl 0
  | cons c rest ih =>
    intro b
    by_cases hc : c.isWhitespace = true
    · by_cases hb : b = true
      · simp only [collapseAux, hc, if_true, hb]
        exact Nat.le_succ_of_le (ih true)
      · have hb' : b = false := by revert hb; cases b <;> simp
        simp only [collapseAux, hc, if_true, hb', Bool.false_eq_true, if_false,
          List.length_cons]
        exact Nat.succ_le_succ (ih true)
    · have hc' : c.isWhitespace = false := by revert hc; cases c.isWhitespace <;> simp
      simp only [collapseAux, hc', Bool.false_eq_true, if_false, List.length_cons]
      exact Nat.succ_le_succ (ih false)

theorem collapseAux_chars : ∀ (l : List Char) (b : Bool) (c : Char),
    c ∈ collapseAux l b → c = ' ' ∨ c ∈ l := by
  intro l
  induction l with
  | nil => intro b c h; cases h
  | cons d rest ih =>
    intro b c h
    by_cases hd : d.isWhitespace = true
    · by_cases hb : b = true
      · simp only [collapseAux, hd, if_true, hb] at h
        rcases ih true c h with h1 | h1
        · exact Or.inl h1
        · exact Or.inr (List.mem_cons_of_mem d h1)
      · have hb' : b = false := by revert hb; cases b <;> simp
        simp only [collapseAux, hd, if_true, hb', Bool.false_eq_true, if_false,
          List.mem_cons] at h
        rcases h with h1 | h1
        · exact Or.inl h1
        · rcases ih true c h1 with h2 | h2
          · exact Or.inl h2
          · exact Or.inr (List.mem_cons_of_mem d h2)
    · have hd' : d.isWhitespace = false := by revert hd; cases d.isWhitespace <;> simp
      simp only [collapseAux, hd', Bool.false_eq_true, if_false, List.mem_cons] at h
      rcases h with h1 | h1
      · exact Or.inr (h1 ▸ List.mem_cons_self d rest)
      · rcases ih false c h1 with h2 | h2
        · exact Or.inl h2
        · exact Or.inr (List.mem_cons_of_mem d h2)

/-! ### Python `str.split()` -/

theorem splitAux_allWS : ∀ (l : List Char), (∀ c ∈ l, c.isWhitespace = true) →
    splitAux l [] = [] := by
  intro l
  induction l with
  | nil => intro _; rfl
  | cons c rest ih =>
    intro h
    have hc : c.isWhitespace = true := h c (List.mem_cons_self c rest)
    simp only [splitAux, hc, if_true, List.isEmpty_nil]
    exact ih (fun d hd => h d (List.mem_cons_of_mem c hd))

theorem splitAux_nonws_run : ∀ (w : List Char), (∀ c ∈ w, c.isWhitespace = false) →
    ∀ (z acc : List Char), splitAux (w ++ z) acc = splitAux z (w.reverse ++ acc) := by
  intro w
  induction w with
  | nil => intro _ z acc; rfl
  | cons c rest ih =>
    intro h z acc
    have hc : c.isWhitespace = false := h c (List.mem_cons_self c rest)
    simp only [List.cons_append, splitAux, hc, Bool.false_eq_true, if_false,
      List.append_eq]
    rw [ih (fun d hd => h d (List.mem_cons_of_mem c hd)) z (c :: acc)]
    simp

theorem pySplit_all_nonws : ∀ (l : List Char), l ≠ [] →
    (∀ c ∈ l, c.isWhitespace = false) → pySplit l = [l] := by
  intro l hne h
  have h1 : pySplit l = splitAux (l ++ []) [] := by simp [pySplit]
  rw [h1, splitAux_nonws_run l h [] []]
  simp only [splitAux, List.append_nil]
  have h2 : l.reverse.isEmpty = false := by
    simp [List.isEmpty_iff, hne]
  simp [h2]

theorem splitAux_good : ∀ (l acc : List Char), (∀ c ∈ acc, c.isWhitespace = false) →
    ∀ w ∈ splitAux l acc, w ≠ [] ∧ ∀ c ∈ w, c.isWhitespace = false := by
  intro l
  induction l with
  | nil =>
    intro acc hacc w hw
    by_cases ha : acc.isEmpty = true
    · simp only [splitAux, ha, if_true] at hw
      cases hw
    · have ha' : acc.isEmpty = false := by revert ha; cases acc.isEmpty <;> simp
      simp only [splitAux, ha', Bool.false_eq_true, if_false, List.mem_singleton] at hw
      subst hw
      constructor
      · simp only [ne_eq, List.reverse_eq_nil_iff]
        intro hnil
        rw [hnil] at ha'
        simp at ha'
      · intro c hc
        exact hacc c (List.mem_reverse.mp hc)
  | cons d rest ih =>
    intro acc hacc w hw
    by_cases hd : d.isWhitespace = true
    · by_cases ha : acc.isEmpty = true
      · simp only [splitAux, hd, if_true, ha] at hw
        exact ih [] (by intro c hc; cases hc) w hw
      · have ha' : acc.isEmpty = false := by revert ha; cases acc.isEmpty <;> simp
        simp only [splitAux, hd, if_true, ha', Bool.false_eq_true, if_false,
          List.mem_cons] at hw
        rcases hw with hw | hw
        · subst hw
          constructor
          · simp only [ne_eq, List.reverse_eq_nil_iff]
            intro hnil
            rw [hnil] at ha'
            simp at ha'
          · intro c hc
            exact hacc c (List.mem_reverse.mp hc)
        · exact ih [] (by intro c hc; cases hc) w hw
    · have hd' : d.isWhitespace = false := by revert hd; cases d.isWhitespace <;> simp
      simp only [splitAux, hd', Bool.false_eq_true, if_false] at hw
      refine ih (d :: acc) ?_ w hw
      intro c hc
      rcases List.mem_cons.mp hc with hc | hc
      · exact hc ▸ hd'
      · exact hacc c hc

theorem pySplit_good (l : List Char) :
    ∀ w ∈ pySplit l, w ≠ [] ∧ ∀ c ∈ w, c.isWhitespace = false :=
  splitAux_good l [] (by intro c hc; cases hc)

theorem splitAux_chars : ∀ (l acc : List Char) (w : List Char), w ∈ splitAux l acc →
    ∀ c ∈ w, c ∈ l ∨ c ∈ acc := by
  intro l
  induction l with
  | nil =>
    intro acc w hw c hc
    by_cases ha : acc.isEmpty = true
    · simp only [splitAux, ha, if_true] at hw
      cases hw
    · have ha' : acc.isEmpty = false := by revert ha; cases acc.isEmpty <;> simp
      simp only [splitAux, ha', Bool.false_eq_true, if_false, List.mem_singleton] at hw
      subst hw
      exact Or.inr (List.mem_reverse.mp hc)
  | cons d rest ih =>
    intro acc w hw c hc
    by_cases hd : d.isWhitespace = true
    · by_cases ha : acc.isEmpty = true
      · simp only [splitAux, hd, if_true, ha] at hw
        rcases ih [] w hw c hc with h1 | h1
        · exact Or.inl (List.mem_cons_of_mem d h1)
        · cases h1
      · have ha' : acc.isEmpty = false := by revert ha; cases acc.isEmpty <;> simp
        simp only [splitAux, hd, if_true, ha', Bool.false_eq_true, if_false,
          List.mem_cons] at hw
        rcases hw with hw | hw
        · subst hw
          exact Or.inr (List.mem_reverse.mp hc)
        · rcases ih [] w hw c hc with h1 | h1
          · exact Or.inl (List.mem_cons_of_mem d h1)
          · cases h1
    · have hd' : d.isWhitespace = false := by revert hd; cases d.isWhitespace <;> simp
      simp only [splitAux, hd', Bool.false_eq_true, if_false] at hw
      rcases ih (d :: acc) w hw c hc with h1 | h1
      · exact Or.inl (List.mem_cons_of_mem d h1)
      · rcases List.mem_cons.mp h1 with h2 | h2
        · exact Or.inl (h2 ▸ List.mem_cons_self d rest)
        · exact Or.inr h2

theorem pySplit_chars (l : List Char) (w : List Char) (hw : w ∈ pySplit l) :
    ∀ c ∈ w, c ∈ l := by
  intro c hc
  rcases splitAux_chars l [] w hw c hc with h | h
  · exact h
  · cases h

/-! ### Python `' '.join(...)` -/

theorem joinSpace_cons_cons (w w' : List Char) (ws : List (List Char)) :
    joinSpace (w :: w' :: ws) = w ++ ' ' :: joinSpace (w' :: ws) :=
  rfl

theorem joinSpace_length_cons (w : List Char) (ws : List (List Char)) :
    (joinSpace (w :: ws)).length =
      w.length + (if ws.isEmpty then 0 else 1 + (joinSpace ws).length) := by
  cases ws with
  | nil => simp [joinSpace]
  | cons w' rest => simp [joinSpace_cons_cons, List.length_append]; omega

theorem joinSpace_tail_length_le (w : List Char) (ws : List (List Char)) :
    (joinSpace ws).length ≤ (joinSpace (w :: ws)).length := by
  rw [joinSpace_length_cons]
  cases ws with
  | nil => simp [joinSpace]
  | cons w' rest => simp; omega

theorem joinSpace_append (l₁ l₂ : List (List Char)) (h₁ : l₁ ≠ []) (h₂ : l₂ ≠ []) :
    joinSpace (l₁ ++ l₂) = joinSpace l₁ ++ ' ' :: joinSpace l₂ := by
  induction l₁ with
  | nil => cases h₁ rfl
  | cons w rest ih =>
    cases rest with
    | nil =>
      cases l₂ with
      | nil => cases h₂ rfl
      | cons w' ws => simp [joinSpace_cons_cons, joinSpace]
    | cons w' ws =>
      have hne : w' :: ws ≠ [] := by simp
      have h3 : joinSpace ((w :: w' :: ws) ++ l₂) =
          w ++ ' ' :: joinSpace ((w' :: ws) ++ l₂) := by
        simp only [List.cons_append]
        exact joinSpace_cons_cons w w' (ws ++ l₂)
      rw [h3, ih hne, joinSpace_cons_cons]
      simp

theorem joinSpace_dropLast_length_le (l : List (List Char)) :
    (joinSpace l.dropLast).length ≤ (joinSpace l).length := by
  cases hl : l.dropLast with
  | nil => simp [joinSpace]
  | cons w ws =>
    have hne : l ≠ [] := by
      intro h; rw [h] at hl; cases hl
    have hlast : l = l.dropLast ++ [l.getLast hne] := (List.dropLast_append_getLast hne).symm
    have h2 : joinSpace l = joinSpace l.dropLast ++ ' ' :: joinSpace [l.getLast hne] := by
      conv_lhs => rw [hlast]
      exact joinSpace_append _ _ (by rw [hl]; simp) (by simp)
    rw [h2, List.length_append, ← hl]
    exact Nat.le_add_right _ _

theorem joinSpace_filter_length_le (p : List Char → Bool) (l : List (List Char)) :
    (joinSpace (l.filter p)).length ≤ (joinSpace l).length := by
  induction l with
  | nil => exact Nat.le_refl 0
  | cons w ws ih =>
    by_cases hp : p w = true
    · rw [List.filter_cons_of_pos hp, joinSpace_length_cons, joinSpace_length_cons]
      by_cases hw : ws.isEmpty = true
      · have hws : ws = [] := List.isEmpty_iff.mp hw
        subst hws
        simp
      · have hw' : ws.isEmpty = false := by revert hw; cases ws.isEmpty <;> simp
        by_cases hf : (ws.filter p).isEmpty = true
        · simp only [hf, if_true, hw', Bool.false_eq_true, if_false]
          omega
        · have hf' : (ws.filter p).isEmpty = false := by
            revert hf; cases (ws.filter p).isEmpty <;> simp
          simp only [hf', hw', Bool.false_eq_true, if_false]
          omega
    · rw [List.filter_cons_of_neg (by simp [hp])]
      exact Nat.le_trans ih (joinSpace_tail_length_le w ws)

theorem splitAux_join_length : ∀ (l acc : List Char),
    (joinSpace (splitAux l acc)).length ≤ l.length + acc.length := by
  intro l
  induction l with
  | nil =>
    intro acc
    by_cases ha : acc.isEmpty = true
    · simp [splitAux, ha, joinSpace]
    · have ha' : acc.isEmpty = false := by revert ha; cases acc.isEmpty <;> simp
      simp [splitAux, ha', joinSpace]
  | cons d rest ih =>
    intro acc
    by_cases hd : d.isWhitespace = true
    · by_cases ha : acc.isEmpty = true
      · simp only [splitAux, hd, if_true, ha, List.length_cons]
        have := ih []
        simp at this
        omega
      · have ha' : acc.isEmpty = false := by revert ha; cases acc.isEmpty <;> simp
        simp only [splitAux, hd, if_true, ha', Bool.false_eq_true, if_false,
          List.length_cons]
        rw [joinSpace_length_cons]
        have := ih []
        simp at this
        by_cases hs : (splitAux rest []).isEmpty = true
        · simp only [hs, if_true, List.length_reverse]
          omega
        · have hs' : (splitAux rest []).isEmpty = false := by
            revert hs; cases (splitAux rest []).isEmpty <;> simp
          simp only [hs', Bool.false_eq_true, if_false, List.length_reverse]
          omega
    · have hd' : d.isWhitespace = false := by revert hd; cases d.isWhitespace <;> simp
      simp only [splitAux, hd', Bool.false_eq_true, if_false, List.length_cons]
      have := ih (d :: acc)
      simp at this
      omega

theorem joinSpace_pySplit_length_le (l : List Char) :
    (joinSpace (pySplit l)).length ≤ l.length := by
  have := splitAux_join_length l []
  simpa [pySplit] using this

/-! ### Whitespace erasure -/

theorem eraseWS_all_ws (l : List Char) (h : ∀ c ∈ l, c.isWhitespace = true) :
    eraseWS l = [] := by
  simp only [eraseWS, List.filter_eq_nil_iff]
  intro c hc
  simp [h c hc]

theorem eraseWS_append (l₁ l₂ : List Char) :
    eraseWS (l₁ ++ l₂) = eraseWS l₁ ++ eraseWS l₂ := by
  simp only [eraseWS]
  exact List.filter_append l₁ l₂

theorem eraseWS_joinSpace : ∀ (ws : List (List Char)),
    eraseWS (joinSpace ws) = (ws.map eraseWS).flatten := by
  intro ws
  induction ws with
  | nil => rfl
  | cons w rest ih =>
    cases rest with
    | nil => simp [joinSpace, eraseWS]
    | cons w' ws' =>
      rw [joinSpace_cons_cons, eraseWS_append]
      have hsp : eraseWS (' ' :: joinSpace (w' :: ws')) = eraseWS (joinSpace (w' :: ws')) := by
        simp [eraseWS]
      rw [hsp, ih]
      simp

theorem flatten_map_eraseWS_filter (p : List Char → Bool) (l : List (List Char))
    (h : ∀ w ∈ l, p w = false → eraseWS w = []) :
    ((l.filter p).map eraseWS).flatten = (l.map eraseWS).flatten := by
  induction l with
  | nil => rfl
  | cons w rest ih =>
    by_cases hp : p w = true
    · rw [List.filter_cons_of_pos hp]
      simp only [List.map_cons, List.flatten_cons]
      rw [ih (fun v hv hpv => h v (List.mem_cons_of_mem w hv) hpv)]
    · have hp' : p w = false := by revert hp; cases p w <;> simp
      rw [List.filter_cons_of_neg (by simp [hp'])]
      simp only [List.map_cons, List.flatten_cons]
      rw [h w (List.mem_cons_self w rest) hp', ih (fun v hv hpv => h v (List.mem_cons_of_mem w hv) hpv)]
      rfl

/-! ### Python `str.strip()` -/

theorem eraseWS_dropWhileWS (l : List Char) :
    eraseWS (l.dropWhile Char.isWhitespace) = eraseWS l := by
  conv_rhs => rw [← List.takeWhile_append_dropWhile (p := Char.isWhitespace) (l := l)]
  rw [eraseWS_append]
  have h : eraseWS (l.takeWhile Char.isWhitespace) = [] :=
    eraseWS_all_ws _ (fun c hc => List.mem_takeWhile_imp hc)
  rw [h, List.nil_append]

theorem eraseWS_reverse (l : List Char) : eraseWS l.reverse = (eraseWS l).reverse := by
  simp only [eraseWS]
  exact List.filter_reverse _ _

theorem pyStrip_eraseWS (l : List Char) : eraseWS (pyStrip l) = eraseWS l := by
  simp only [pyStrip]
  rw [eraseWS_reverse, eraseWS_dropWhileWS, eraseWS_reverse, eraseWS_dropWhileWS,
    List.reverse_reverse]

theorem pyStrip_nil_eraseWS (l : List Char) (h : pyStrip l = []) : eraseWS l = [] := by
  rw [← pyStrip_eraseWS, h]
  rfl

theorem pyStrip_length_le (l : List Char) : (pyStrip l).length ≤ l.length := by
  simp only [pyStrip, List.length_reverse]
  calc ((l.dropWhile Char.isWhitespace).reverse.dropWhile Char.isWhitespace).length
      ≤ (l.dropWhile Char.isWhitespace).reverse.length :=
        (List.dropWhile_sublist Char.isWhitespace).length_le
    _ = (l.dropWhile Char.isWhitespace).length := List.length_reverse _
    _ ≤ l.length := (List.dropWhile_sublist Char.isWhitespace).length_le

theorem pyStrip_subset (l : List Char) (c : Char) (h : c ∈ pyStrip l) : c ∈ l := by
  simp only [pyStrip, List.mem_reverse] at h
  have h1 := (List.dropWhile_sublist Char.isWhitespace).subset h
  rw [List.mem_reverse] at h1
  exact (List.dropWhile_sublist Char.isWhitespace).subset h1

theorem dropWhileWS_eq_self (l : List Char)
    (h : ∀ c, l.head? = some c → c.isWhitespace = false) :
    l.dropWhile Char.isWhitespace = l := by
  cases l with
  | nil => rfl
  | cons c t =>
    have hc : c.isWhitespace = false := h c rfl
    exact List.dropWhile_cons_of_neg (by simp [hc])

theorem pyStrip_noop (l : List Char)
    (hh : ∀ c, l.head? = some c → c.isWhitespace = false)
    (hl : ∀ c, l.getLast? = some c → c.isWhitespace = false) :
    pyStrip l = l := by
  simp only [pyStrip]
  rw [dropWhileWS_eq_self l hh]
  have h2 : l.reverse.dropWhile Char.isWhitespace = l.reverse := by
    refine dropWhileWS_eq_self l.reverse ?_
    intro c hc
    rw [List.head?_reverse] at hc
    exact hl c hc
  rw [h2, List.reverse_reverse]

theorem dropWhile_getLast? (p : Char → Bool) (l : List Char)
    (h : l.dropWhile p ≠ []) : (l.dropWhile p).getLast? = l.getLast? := by
  conv_rhs => rw [← List.takeWhile_append_dropWhile (p := p) (l := l)]
  rw [List.getLast?_append]
  cases hdw : (l.dropWhile p).getLast? with
  | none =>
    rw [List.getLast?_eq_none_iff] at hdw
    cases h hdw
  | some x => simp [Option.or]

theorem getLast?_mem : ∀ (l : List Char) (c : Char), l.getLast? = some c → c ∈ l := by
  intro l
  induction l with
  | nil => intro c h; cases h
  | cons a t ih =>
    intro c h
    cases t with
    | nil =>
      simp only [List.getLast?_singleton, Option.some.injEq] at h
      exact h ▸ List.mem_singleton_self a
    | cons b t' =>
      rw [List.getLast?_cons_cons] at h
      exact List.mem_cons_of_mem a (ih c h)

theorem pyStrip_idem (l : List Char) : pyStrip (pyStrip l) = pyStrip l := by
  by_cases hnil : pyStrip l = []
  · rw [hnil]; rfl
  · refine pyStrip_noop (pyStrip l) ?_ ?_
    · intro c hc
      simp only [pyStrip] at hc
      rw [List.head?_reverse] at hc
      have hne : (l.dropWhile Char.isWhitespace).reverse.dropWhile Char.isWhitespace ≠ [] := by
        intro h
        apply hnil
        simp [pyStrip, h]
      rw [dropWhile_getLast? Char.isWhitespace _ hne, List.getLast?_reverse] at hc
      have := List.head?_dropWhile_not Char.isWhitespace l
      rw [hc] at this
      exact this
    · intro c hc
      simp only [pyStrip] at hc
      rw [List.getLast?_reverse] at hc
      have := List.head?_dropWhile_not Char.isWhitespace
        (l.dropWhile Char.isWhitespace).reverse
      rw [hc] at this
      exact this

/-! ### Joined well-formed word lists -/

theorem goodWords_nil : goodWords [] := by
  intro w hw
  cases hw

theorem goodWords_of_cons {w : List Char} {ws : List (List Char)}
    (h : goodWords (w :: ws)) : goodWords ws := by
  intro v hv
  exact h v (List.mem_cons_of_mem w hv)

theorem joinSpace_cons_shape (w : List Char) (ws : List (List Char)) :
    ∃ t, joinSpace (w :: ws) = w ++ t := by
  cases ws with
  | nil => exact ⟨[], by simp [joinSpace]⟩
  | cons w' rest => exact ⟨' ' :: joinSpace (w' :: rest), joinSpace_cons_cons w w' rest⟩

theorem joinSpace_good_ne_nil (w : List Char) (ws : List (List Char))
    (h : goodWords (w :: ws)) : joinSpace (w :: ws) ≠ [] := by
  obtain ⟨t, ht⟩ := joinSpace_cons_shape w ws
  rw [ht]
  have hw : w ≠ [] := (h w (List.mem_cons_self w ws)).1
  cases w with
  | nil => cases hw rfl
  | cons c u => simp

theorem joinSpace_good_head (ws : List (List Char)) (h : goodWords ws) :
    ∀ c, (joinSpace ws).head? = some c → c.isWhitespace = false := by
  intro c hc
  cases ws with
  | nil => cases hc
  | cons w rest =>
    obtain ⟨t, ht⟩ := joinSpace_cons_shape w rest
    have hw := h w (List.mem_cons_self w rest)
    cases w with
    | nil => cases hw.1 rfl
    | cons c0 u =>
      rw [ht] at hc
      simp only [List.cons_append, List.head?_cons, Option.some.injEq] at hc
      subst hc
      exact hw.2 c0 (List.mem_cons_self c0 u)

theorem joinSpace_good_getLast (ws : List (List Char)) (h : goodWords ws) :
    ∀ c, (joinSpace ws).getLast? = some c → c.isWhitespace = false := by
  induction ws with
  | nil => intro c hc; cases hc
  | cons w rest ih =>
    intro c hc
    cases rest with
    | nil =>
      have hw := h w (List.mem_cons_self w [])
      exact hw.2 c (getLast?_mem w c hc)
    | cons w' ws' =>
      rw [joinSpace_cons_cons, List.getLast?_append] at hc
      have hgood : goodWords (w' :: ws') := goodWords_of_cons h
      have hne : joinSpace (w' :: ws') ≠ [] := joinSpace_good_ne_nil w' ws' hgood
      have hsp : (' ' :: joinSpace (w' :: ws')).getLast? = (joinSpace (w' :: ws')).getLast? := by
        cases hj : joinSpace (w' :: ws') with
        | nil => cases hne hj
        | cons x xs => rw [List.getLast?_cons_cons]
      rw [hsp] at hc
      cases hlast : (joinSpace (w' :: ws')).getLast? with
      | none =>
        rw [List.getLast?_eq_none_iff] at hlast
        cases hne hlast
      | some x =>
        rw [hlast] at hc
        simp only [Option.or_some, Option.some.injEq] at hc
        subst hc
        exact ih hgood x hlast

theorem pyStrip_joinSpace_good (ws : List (List Char)) (h : goodWords ws) :
    pyStrip (joinSpace ws) = joinSpace ws :=
  pyStrip_noop _ (joinSpace_good_head ws h) (joinSpace_good_getLast ws h)

theorem collapseWS_joinSpace_good (ws : List (List Char)) (h : goodWords ws) :
    collapseWS (joinSpace ws) = joinSpace ws := by
  induction ws with
  | nil => rfl
  | cons w rest ih =>
    cases rest with
    | nil =>
      have hw := h w (List.mem_cons_self w [])
      exact collapseAux_nonws w hw.2 false
    | cons w' ws' =>
      have hgood : goodWords (w' :: ws') := goodWords_of_cons h
      have hw := h w (List.mem_cons_self w (w' :: ws'))
      rw [joinSpace_cons_cons]
      simp only [collapseWS] at ih ⊢
      rw [collapseAux_append_nonws w (' ' :: joinSpace (w' :: ws')) hw.2]
      have hsp : collapseAux (' ' :: joinSpace (w' :: ws')) false =
          ' ' :: collapseAux (joinSpace (w' :: ws')) true := by
        simp [collapseAux]
      rw [hsp]
      have hw' := hgood w' (List.mem_cons_self w' ws')
      obtain ⟨t, ht⟩ := joinSpace_cons_shape w' ws'
      obtain ⟨c0, u, hwshape⟩ : ∃ c0 u, w' = c0 :: u := by
        rcases hws : w' with _ | ⟨a, b⟩
        · rw [hws] at hw'
          cases hw'.1 rfl
        · exact ⟨a, b, rfl⟩
      have hc0 : c0.isWhitespace = false := by
        refine hw'.2 c0 ?_
        rw [hwshape]
        exact List.mem_cons_self c0 u
      have hshape : joinSpace (w' :: ws') = c0 :: (u ++ t) := by
        rw [ht, hwshape]
        simp
      have htrue : collapseAux (joinSpace (w' :: ws')) true =
          collapseAux (joinSpace (w' :: ws')) false := by
        rw [hshape]
        simp [collapseAux, hc0]
      rw [htrue, ih hgood]

theorem pySplit_word_space (w y : List Char) (hw : w ≠ [])
    (hnw : ∀ c ∈ w, c.isWhitespace = false) :
    pySplit (w ++ ' ' :: y) = w :: pySplit y := by
  have h1 : pySplit (w ++ ' ' :: y) = splitAux (' ' :: y) w.reverse := by
    simp only [pySplit]
    rw [splitAux_nonws_run w hnw (' ' :: y) []]
    simp
  rw [h1]
  have hsp : (' ' : Char).isWhitespace = true := rfl
  have hacc : w.reverse.isEmpty = false := by
    cases hwr : w.reverse with
    | nil =>
      rw [List.reverse_eq_nil_iff] at hwr
      cases hw hwr
    | cons a b => rfl
  simp only [splitAux, hsp, if_true, hacc, Bool.false_eq_true, if_false,
    List.reverse_reverse]
  rfl

theorem pySplit_joinSpace_good (ws : List (List Char)) (h : goodWords ws) :
    pySplit (joinSpace ws) = ws := by
  induction ws with
  | nil => rfl
  | cons w rest ih =>
    cases rest with
    | nil =>
      have hw := h w (List.mem_cons_self w [])
      exact pySplit_all_nonws w hw.1 hw.2
    | cons w' ws' =>
      have hgood : goodWords (w' :: ws') := goodWords_of_cons h
      have hw := h w (List.mem_cons_self w (w' :: ws'))
      rw [joinSpace_cons_cons, pySplit_word_space w _ hw.1 hw.2, ih hgood]

/-! ### The sanitizer `clean_text_for_tts` -/

theorem keptWords_good (text : List Char) : goodWords (keptWords text) := by
  intro w hw
  exact pySplit_good _ w (List.mem_of_mem_filter hw)

theorem clean_unfold (text : List Char) :
    clean_text_for_tts text = pyStrip (joinSpace (keptWords text)) :=
  rfl

theorem clean_eq_join (text : List Char) :
    clean_text_for_tts text = joinSpace (keptWords text) := by
  rw [clean_unfold]
  exact pyStrip_joinSpace_good _ (keptWords_good text)

theorem clean_strip_invariant (text : List Char) :
    pyStrip (clean_text_for_tts text) = clean_text_for_tts text := by
  rw [clean_eq_join]
  exact pyStrip_joinSpace_good _ (keptWords_good text)

theorem replaceBad_chars (text : List Char) (c : Char) (h : c ∈ replaceBad text) :
    isWhitelisted c = true := by
  simp only [replaceBad, List.mem_map] at h
  obtain ⟨d, _, hd⟩ := h
  by_cases hw : isWhitelisted d = true
  · rw [if_pos hw] at hd
    exact hd ▸ hw
  · rw [if_neg hw] at hd
    subst hd
    rfl

theorem joinSpace_chars (ws : List (List Char)) (c : Char) (h : c ∈ joinSpace ws) :
    c = ' ' ∨ ∃ w ∈ ws, c ∈ w := by
  induction ws with
  | nil => cases h
  | cons w rest ih =>
    cases rest with
    | nil =>
      refine Or.inr ⟨w, List.mem_cons_self w [], ?_⟩
      simpa [joinSpace] using h
    | cons w' ws' =>
      rw [joinSpace_cons_cons, List.mem_append] at h
      rcases h with h | h
      · exact Or.inr ⟨w, List.mem_cons_self w _, h⟩
      · rcases List.mem_cons.mp h with h | h
        · exact Or.inl h
        · rcases ih h with h1 | ⟨v, hv, hcv⟩
          · exact Or.inl h1
          · exact Or.inr ⟨v, List.mem_cons_of_mem w hv, hcv⟩

theorem keptWords_chars (text : List Char) (w : List Char) (hw : w ∈ keptWords text)
    (c : Char) (hc : c ∈ w) : isWhitelisted c = true := by
  have h1 : w ∈ pySplit (collapseWS (replaceBad text)) := List.mem_of_mem_filter hw
  have h2 : c ∈ collapseWS (replaceBad text) := pySplit_chars _ w h1 c hc
  rcases collapseAux_chars (replaceBad text) false c h2 with h3 | h3
  · subst h3
    rfl
  · exact replaceBad_chars text c h3

theorem joinSpace_keptWords_chars (text : List Char) (c : Char)
    (h : c ∈ joinSpace (keptWords text)) : isWhitelisted c = true := by
  rcases joinSpace_chars _ c h with h1 | ⟨w, hw, hcw⟩
  · subst h1
    rfl
  · exact keptWords_chars text w hw c hcw

theorem replaceBad_id (l : List Char) (h : ∀ c ∈ l, isWhitelisted c = true) :
    replaceBad l = l := by
  simp only [replaceBad]
  have h1 : ∀ c ∈ l, (if isWhitelisted c then c else ' ') = id c := by
    intro c hc
    rw [if_pos (h c hc)]
    rfl
  rw [List.map_congr_left h1, List.map_id]

theorem clean_length_le (text : List Char) :
    (clean_text_for_tts text).length ≤ text.length := by
  calc (clean_text_for_tts text).length
      ≤ (joinSpace ((pySplit (collapseWS (replaceBad text))).filter
          (fun w => w.length ≤ 50))).length := by
        rw [clean_unfold]
        exact pyStrip_length_le _
    _ ≤ (joinSpace (pySplit (collapseWS (replaceBad text)))).length :=
        joinSpace_filter_length_le _ _
    _ ≤ (collapseWS (replaceBad text)).length := joinSpace_pySplit_length_le _
    _ ≤ (replaceBad text).length := collapseAux_length_le _ false
    _ = text.length := List.length_map _ _

/-! ### The backward sentence-boundary scan and the chosen split point -/

theorem backScanAux_some (chunk_text : List Char) (lo : Nat) :
    ∀ i b, backScanAux chunk_text lo i = some b → 1 ≤ b ∧ b ≤ i + 1 := by
  intro i
  induction i with
  | zero => intro b h; cases h
  | succ j ih =>
    intro b h
    simp only [backScanAux] at h
    by_cases hlo : j + 1 ≤ lo
    · rw [if_pos hlo] at h; cases h
    · rw [if_neg hlo] at h
      by_cases hm : matchesAt chunk_text (j + 1) = true
      · rw [if_pos hm] at h
        injection h with h
        omega
      · rw [if_neg hm] at h
        have := ih b h
        omega

theorem backScan_some (chunk_text : List Char) (b : Nat)
    (h : backScan chunk_text = some b) : 1 ≤ b ∧ b ≤ chunk_text.length := by
  simp only [backScan] at h
  have h1 := backScanAux_some chunk_text (max (chunk_text.length / 2) 0)
    (chunk_text.length - 1) b h
  rcases Nat.eq_zero_or_pos chunk_text.length with hz | hp
  · rw [hz] at h
    simp only [backScanAux] at h
    cases h
  · omega

theorem findBestSplit_pos (chunk_text : List Char) (chunk_size : Nat)
    (hcs : 1 ≤ chunk_size) : 1 ≤ findBestSplit chunk_text chunk_size := by
  simp only [findBestSplit]
  cases hbs : backScan chunk_text with
  | some b => exact (backScan_some _ b hbs).1
  | none =>
    by_cases hlen : 1 < (pySplit chunk_text).length
    · rw [if_pos hlen]
      obtain ⟨w, rest, hshape⟩ : ∃ w rest, (pySplit chunk_text).dropLast = w :: rest := by
        have h1 : (pySplit chunk_text).dropLast.length = (pySplit chunk_text).length - 1 :=
          List.length_dropLast _
        cases hdl : (pySplit chunk_text).dropLast with
        | nil =>
          rw [hdl] at h1
          simp at h1
          omega
        | cons a bl => exact ⟨a, bl, rfl⟩
      rw [hshape, joinSpace_length_cons]
      have hmem : w ∈ pySplit chunk_text := by
        refine List.dropLast_subset _ ?_
        rw [hshape]
        exact List.mem_cons_self w rest
      have hw : w ≠ [] := (pySplit_good _ w hmem).1
      have hw1 : 1 ≤ w.length := by
        cases w with
        | nil => cases hw rfl
        | cons a bl => simp
      by_cases hr : rest.isEmpty = true
      · simp only [hr, if_true]
        omega
      · have hr' : rest.isEmpty = false := by revert hr; cases rest.isEmpty <;> simp
        simp only [hr', Bool.false_eq_true, if_false]
        omega
    · rw [if_neg hlen]
      exact hcs

theorem findBestSplit_le (chunk_text : List Char) (chunk_size : Nat)
    (hlen : chunk_text.length = chunk_size) :
    findBestSplit chunk_text chunk_size ≤ chunk_size := by
  cases hbs : backScan chunk_text with
  | some b =>
    have hred : findBestSplit chunk_text chunk_size = b := by
      simp only [findBestSplit, hbs]
    rw [hred]
    exact hlen ▸ (backScan_some _ b hbs).2
  | none =>
    by_cases h1 : 1 < (pySplit chunk_text).length
    · have hred : findBestSplit chunk_text chunk_size =
          (joinSpace (pySplit chunk_text).dropLast).length := by
        simp only [findBestSplit, hbs, if_pos h1]
      rw [hred]
      calc (joinSpace (pySplit chunk_text).dropLast).length
          ≤ (joinSpace (pySplit chunk_text)).length := joinSpace_dropLast_length_le _
        _ ≤ chunk_text.length := joinSpace_pySplit_length_le _
        _ = chunk_size := hlen
    · have hred : findBestSplit chunk_text chunk_size = chunk_size := by
        simp only [findBestSplit, hbs, if_neg h1]
      rw [hred]

/-! ### Cursor advancement over whitespace -/

theorem skipWS_ge (text : List Char) (pos : Nat) : pos ≤ skipWS text pos :=
  Nat.le_add_right _ _

theorem dropWhile_eq_drop_len_takeWhile (p : Char → Bool) :
    ∀ l : List Char, l.dropWhile p = l.drop (l.takeWhile p).length := by
  intro l
  induction l with
  | nil => rfl
  | cons c t ih =>
    by_cases hc : p c = true
    · rw [List.takeWhile_cons_of_pos hc, List.dropWhile_cons_of_pos hc]
      simp only [List.length_cons, List.drop_succ_cons]
      exact ih
    · rw [List.takeWhile_cons_of_neg (by simp [hc]), List.dropWhile_cons_of_neg (by simp [hc])]
      rfl

theorem drop_skipWS (text : List Char) (pos : Nat) :
    text.drop (skipWS text pos) = (text.drop pos).dropWhile Char.isWhitespace := by
  simp only [skipWS]
  have h1 : (text.drop pos).drop ((text.drop pos).takeWhile Char.isWhitespace).length =
      text.drop (pos + ((text.drop pos).takeWhile Char.isWhitespace).length) := by
    rw [List.drop_drop, Nat.add_comm]
  rw [← h1, ← dropWhile_eq_drop_len_takeWhile]

theorem eraseWS_drop_skipWS (text : List Char) (pos : Nat) :
    eraseWS (text.drop (skipWS text pos)) = eraseWS (text.drop pos) := by
  rw [drop_skipWS]
  exact eraseWS_dropWhileWS _

/-! ### The splitting loop -/

theorem splitLoop_spec (text : List Char) (chunk_size : Nat) (hcs : 1 ≤ chunk_size) :
    ∀ (fuel pos : Nat) (acc : List (List Char)), text.length - pos < fuel →
    ∃ res, splitLoop text chunk_size fuel pos acc = some res ∧
      (∀ c ∈ res, c ∈ acc ∨ c.length ≤ chunk_size) ∧
      (res.map eraseWS).flatten = (acc.map eraseWS).flatten ++ eraseWS (text.drop pos) := by
  intro fuel
  induction fuel with
  | zero =>
    intro pos acc h
    exact ((Nat.not_lt_zero _) h).elim
  | succ fuel ih =>
    intro pos acc h
    by_cases hpos : pos < text.length
    · by_cases hend : text.length ≤ pos + chunk_size
      · refine ⟨acc ++ [pyStrip (text.drop pos)], ?_, ?_, ?_⟩
        · simp only [splitLoop, if_pos hpos, if_pos hend]
        · intro c hc
          rcases List.mem_append.mp hc with h1 | h1
          · exact Or.inl h1
          · right
            have hc' : c = pyStrip (text.drop pos) := List.mem_singleton.mp h1
            subst hc'
            calc (pyStrip (text.drop pos)).length
                ≤ (text.drop pos).length := pyStrip_length_le _
              _ = text.length - pos := List.length_drop pos text
              _ ≤ chunk_size := by omega
        · rw [List.map_append, List.flatten_append]
          simp only [List.map_cons, List.map_nil, List.flatten_cons, List.flatten_nil,
            List.append_nil]
          rw [pyStrip_eraseWS]
      · have hstep : splitLoop text chunk_size (fuel + 1) pos acc =
            splitLoop text chunk_size fuel
              (skipWS text (pos + findBestSplit ((text.drop pos).take chunk_size) chunk_size))
              (acc ++ [pyStrip ((text.drop pos).take
                (findBestSplit ((text.drop pos).take chunk_size) chunk_size))]) := by
          simp only [splitLoop]
          rw [if_pos hpos, if_neg hend]
        set chunk_text := (text.drop pos).take chunk_size with hct
        have hctlen : chunk_text.length = chunk_size := by
          rw [hct, List.length_take, List.length_drop]
          omega
        set bs := findBestSplit chunk_text chunk_size with hbsdef
        have hbs1 : 1 ≤ bs := findBestSplit_pos chunk_text chunk_size hcs
        have hbsle : bs ≤ chunk_size := findBestSplit_le chunk_text chunk_size hctlen
        have hskip : pos + bs ≤ skipWS text (pos + bs) := skipWS_ge text (pos + bs)
        have hfuel : text.length - skipWS text (pos + bs) < fuel := by omega
        obtain ⟨res, hres, hmem, hjoin⟩ := ih (skipWS text (pos + bs))
          (acc ++ [pyStrip ((text.drop pos).take bs)]) hfuel
        refine ⟨res, ?_, ?_, ?_⟩
        · rw [hstep]
          exact hres
        · intro c hc
          rcases hmem c hc with h1 | h1
          · rcases List.mem_append.mp h1 with h2 | h2
            · exact Or.inl h2
            · right
              have hc' : c = pyStrip ((text.drop pos).take bs) := List.mem_singleton.mp h2
              subst hc'
              calc (pyStrip ((text.drop pos).take bs)).length
                  ≤ ((text.drop pos).take bs).length := pyStrip_length_le _
                _ ≤ bs := by
                    rw [List.length_take]
                    omega
                _ ≤ chunk_size := hbsle
          · exact Or.inr h1
        · rw [hjoin, List.map_append, List.flatten_append]
          simp only [List.map_cons, List.map_nil, List.flatten_cons, List.flatten_nil,
            List.append_nil]
          rw [pyStrip_eraseWS, List.append_assoc]
          congr 1
          rw [eraseWS_drop_skipWS]
          have hdd : (text.drop pos).drop bs = text.drop (pos + bs) := by
            rw [List.drop_drop, Nat.add_comm]
          rw [← hdd, ← eraseWS_append, List.take_append_drop]
    · refine ⟨acc, ?_, ?_, ?_⟩
      · simp only [splitLoop, if_neg hpos]
      · intro c hc
        exact Or.inl hc
      · have hd : text.drop pos = [] := List.drop_eq_nil_of_le (by omega)
        rw [hd]
        simp [eraseWS]

/-- Combined result about `smart_text_splitter` for `chunk_size ≥ 1`: the fuel
is sufficient, every chunk is bounded by `chunk_size`, and the chunks carry
exactly the non-whitespace content of the sanitized text, in order. -/
theorem splitter_result (text : List Char) (chunk_size : Nat) (hcs : 1 ≤ chunk_size) :
    ∃ res, smart_text_splitter text chunk_size = some res ∧
      (∀ c ∈ res, c.length ≤ chunk_size) ∧
      (res.map eraseWS).flatten = eraseWS (clean_text_for_tts text) := by
  by_cases hle : (clean_text_for_tts text).length ≤ chunk_size
  · refine ⟨[clean_text_for_tts text], ?_, ?_, ?_⟩
    · simp only [smart_text_splitter, if_pos hle]
    · intro c hc
      rw [List.mem_singleton.mp hc]
      exact hle
    · simp
  · obtain ⟨res0, hres0, hmem, hjoin⟩ := splitLoop_spec (clean_text_for_tts text) chunk_size hcs
      ((clean_text_for_tts text).length + 1) 0 [] (by omega)
    refine ⟨res0.filter (fun c => !(pyStrip c).isEmpty), ?_, ?_, ?_⟩
    · simp only [smart_text_splitter, if_neg hle]
      rw [hres0]
      rfl
    · intro c hc
      have hc0 : c ∈ res0 := List.mem_of_mem_filter hc
      rcases hmem c hc0 with h | h
      · cases h
      · exact h
    · rw [flatten_map_eraseWS_filter _ res0 ?_]
      · rw [hjoin]
        simp
      · intro w _ hpw
        have h1 : (pyStrip w).isEmpty = true := by
          revert hpw
          cases (pyStrip w).isEmpty <;> simp
        exact pyStrip_nil_eraseWS w (List.isEmpty_iff.mp h1)

/-! ### Whitespace collapsing does not change tokenization -/

theorem splitAux_collapseAux : ∀ (l : List Char) (acc : List Char) (b : Bool),
    (b = true → acc = []) → splitAux (collapseAux l b) acc = splitAux l acc := by
  intro l
  induction l with
  | nil =>
    intro acc b _
    rfl
  | cons c rest ih =>
    intro acc b hb
    by_cases hc : c.isWhitespace = true
    · by_cases hbt : b = true
      · have hacc : acc = [] := hb hbt
        subst hacc
        subst hbt
        simp only [collapseAux, hc, if_true]
        rw [ih [] true (fun _ => rfl)]
        simp only [splitAux, hc, if_true, List.isEmpty_nil]
      · have hbf : b = false := by revert hbt; cases b <;> simp
        subst hbf
        simp only [collapseAux, hc, if_true, Bool.false_eq_true, if_false]
        by_cases ha : acc.isEmpty = true
        · simp only [splitAux, hc, if_true, ha, if_true]
          have hsp : (' ' : Char).isWhitespace = true := rfl
          simp only [hsp]
          exact ih [] true (fun _ => rfl)
        · have ha' : acc.isEmpty = false := by revert ha; cases acc.isEmpty <;> simp
          have hsp : (' ' : Char).isWhitespace = true := rfl
          simp only [splitAux, hc, hsp, if_true, ha', Bool.false_eq_true, if_false]
          rw [ih [] true (fun _ => rfl)]
    · have hc' : c.isWhitespace = false := by revert hc; cases c.isWhitespace <;> simp
      simp only [collapseAux, hc', Bool.false_eq_true, if_false, splitAux]
      exact ih (c :: acc) false (by intro h; cases h)

theorem pySplit_collapseWS (l : List Char) : pySplit (collapseWS l) = pySplit l := by
  simp only [pySplit, collapseWS]
  exact splitAux_collapseAux l [] false (by intro h; cases h)

/-- A trailing whitespace character does not change Python `str.split()`. -/
theorem splitAux_append_ws (c : Char) (hc : c.isWhitespace = true) :
    ∀ (l acc : List Char), splitAux (l ++ [c]) acc = splitAux l acc := by
  intro l
  induction l with
  | nil =>
    intro acc
    by_cases ha : acc.isEmpty = true
    · have hacc : acc = [] := List.isEmpty_iff.mp ha
      subst hacc
      simp [splitAux, hc]
    · have ha' : acc.isEmpty = false := by revert ha; cases acc.isEmpty <;> simp
      simp [splitAux, hc, ha']
  | cons d rest ih =>
    intro acc
    by_cases hd : d.isWhitespace = true
    · by_cases ha : acc.isEmpty = true
      · simp only [List.cons_append, splitAux, hd, if_true, ha, if_true]
        exact ih []
      · have ha' : acc.isEmpty = false := by revert ha; cases acc.isEmpty <;> simp
        simp only [List.cons_append, splitAux, hd, if_true, ha', Bool.false_eq_true, if_false,
          List.append_eq]
        rw [ih []]
    · have hd' : d.isWhitespace = false := by revert hd; cases d.isWhitespace <;> simp
      simp only [List.cons_append, splitAux, hd', Bool.false_eq_true, if_false,
        List.append_eq]
      exact ih (d :: acc)

theorem pySplit_append_ws (l : List Char) (c : Char) (hc : c.isWhitespace = true) :
    pySplit (l ++ [c]) = pySplit l :=
  splitAux_append_ws c hc l []

/-! ### Unfolding equations for the splitting loop -/

theorem splitLoop_step_mid (text : List Char) (chunk_size fuel pos : Nat)
    (acc : List (List Char)) (hpos : pos < text.length)
    (hend : ¬ text.length ≤ pos + chunk_size) :
    splitLoop text chunk_size (fuel + 1) pos acc =
      splitLoop text chunk_size fuel
        (skipWS text (pos + findBestSplit ((text.drop pos).take chunk_size) chunk_size))
        (acc ++ [pyStrip ((text.drop pos).take
          (findBestSplit ((text.drop pos).take chunk_size) chunk_size))]) := by
  simp only [splitLoop]
  rw [if_pos hpos, if_neg hend]

theorem splitLoop_step_last (text : List Char) (chunk_size fuel pos : Nat)
    (acc : List (List Char)) (hpos : pos < text.length)
    (hend : text.length ≤ pos + chunk_size) :
    splitLoop text chunk_size (fuel + 1) pos acc =
      some (acc ++ [pyStrip (text.drop pos)]) := by
  simp only [splitLoop]
  rw [if_pos hpos, if_pos hend]

/-! ### The backward scan on terminator-free text -/

theorem matchesAt_no_term (chunk : List Char)
    (h : ∀ c ∈ chunk, c ≠ '.' ∧ c ≠ '!' ∧ c ≠ '?') (i : Nat) :
    matchesAt chunk i = false := by
  simp only [matchesAt]
  rw [List.any_eq_false]
  intro e he hbeq
  have heq : (chunk.drop i).take e.length = e := eq_of_beq hbeq
  have hmem : ∀ c ∈ e, c ∈ chunk := by
    intro c hc
    rw [← heq] at hc
    exact List.mem_of_mem_drop (List.mem_of_mem_take hc)
  simp only [sentence_endings, List.mem_cons, List.not_mem_nil, or_false] at he
  rcases he with rfl | rfl | rfl | rfl | rfl | rfl
  · exact (h '.' (hmem '.' (by simp))).1 rfl
  · exact (h '!' (hmem '!' (by simp))).2.1 rfl
  · exact (h '?' (hmem '?' (by simp))).2.2 rfl
  · exact (h '.' (hmem '.' (by simp))).1 rfl
  · exact (h '!' (hmem '!' (by simp))).2.1 rfl
  · exact (h '?' (hmem '?' (by simp))).2.2 rfl

theorem backScanAux_none (chunk : List Char) (lo : Nat)
    (h : ∀ i, matchesAt chunk i = false) : ∀ i, backScanAux chunk lo i = none := by
  intro i
  induction i with
  | zero => rfl
  | succ j ih =>
    simp only [backScanAux, h (j + 1), Bool.false_eq_true, if_false]
    by_cases hlo : j + 1 ≤ lo
    · rw [if_pos hlo]
    · rw [if_neg hlo]
      exact ih

theorem backScan_no_term (chunk : List Char)
    (h : ∀ c ∈ chunk, c ≠ '.' ∧ c ≠ '!' ∧ c ≠ '?') : backScan chunk = none := by
  simp only [backScan]
  exact backScanAux_none chunk _ (matchesAt_no_term chunk h) _

/-! ### Whitespace-only input and a zero chunk size -/

theorem clean_all_ws (text : List Char) (h : ∀ c ∈ text, c.isWhitespace = true) :
    clean_text_for_tts text = [] := by
  have h1 : replaceBad text = text := by
    refine replaceBad_id text ?_
    intro c hc
    simp [isWhitelisted, h c hc]
  have h2 : ∀ c ∈ collapseWS text, c.isWhitespace = true := by
    intro c hc
    rcases collapseAux_chars text false c hc with h3 | h3
    · subst h3
      rfl
    · exact h c h3
  have h3 : pySplit (collapseWS text) = [] := splitAux_allWS _ h2
  rw [clean_unfold]
  simp only [keptWords, h1, h3, List.filter_nil]
  rfl

theorem splitter_all_ws (text : List Char) (chunk_size : Nat)
    (h : ∀ c ∈ text, c.isWhitespace = true) :
    smart_text_splitter text chunk_size = some [[]] := by
  have h1 := clean_all_ws text h
  simp only [smart_text_splitter, h1, List.length_nil]
  rw [if_pos (Nat.zero_le chunk_size)]

theorem splitLoop_ab_zero : ∀ (fuel : Nat) (acc : List (List Char)),
    splitLoop ['a', 'b'] 0 fuel 0 acc = none := by
  intro fuel
  induction fuel with
  | zero => intro acc; rfl
  | succ fuel ih =>
    intro acc
    have h1 : splitLoop ['a', 'b'] 0 (fuel + 1) 0 acc =
        splitLoop ['a', 'b'] 0 fuel 0 (acc ++ [[]]) := rfl
    rw [h1]
    exact ih (acc ++ [[]])

theorem splitter_ab_zero : smart_text_splitter ['a', 'b'] 0 = none := by
  have h1 : clean_text_for_tts ['a', 'b'] = ['a', 'b'] := by decide
  simp only [smart_text_splitter, h1]
  rw [if_neg (by decide : ¬ (['a', 'b'] : List Char).length ≤ 0)]
  rw [splitLoop_ab_zero (['a', 'b'] : List Char).length.succ []]
  rfl

/-! ### The per-chunk synthesis loop of `convert_large_text_to_speech` -/

theorem foldl_append_eq_flatten : ∀ (l : List (List Nat)) (init : List Nat),
    l.foldl (fun a b => a ++ b) init = init ++ l.flatten := by
  intro l
  induction l with
  | nil => intro init; simp
  | cons x xs ih =>
    intro init
    simp only [List.foldl_cons, List.flatten_cons]
    rw [ih (init ++ x), List.append_assoc]

theorem writeAudio_flatten (l : List (List Nat)) : writeAudio l = l.flatten := by
  have := foldl_append_eq_flatten l []
  simpa [writeAudio] using this

theorem synthChunkAudio_flatten (fragments : List (List Nat)) :
    synthChunkAudio fragments = fragments.flatten := by
  have := foldl_append_eq_flatten fragments []
  simpa [synthChunkAudio] using this

theorem processChunks_spec (synth : Nat → List Char → Option (List (List Nat))) :
    ∀ (l : List (List Char)) (i : Nat) (acc : List (List Nat)),
    processChunks synth l i acc =
      acc ++ (l.enumFrom i).filterMap (fun p => (synth p.1 p.2).map synthChunkAudio) := by
  intro l
  induction l with
  | nil => intro i acc; simp [processChunks]
  | cons c rest ih =>
    intro i acc
    cases hs : synth i c with
    | some fragments =>
      have hstep : processChunks synth (c :: rest) i acc =
          processChunks synth rest (i + 1) (acc ++ [synthChunkAudio fragments]) := by
        simp only [processChunks, hs]
      rw [hstep, ih (i + 1) (acc ++ [synthChunkAudio fragments])]
      simp only [List.enumFrom_cons, List.filterMap_cons, hs, Option.map_some']
      rw [List.append_assoc]
      rfl
    | none =>
      have hstep : processChunks synth (c :: rest) i acc =
          processChunks synth rest (i + 1) acc := by
        simp only [processChunks, hs]
      rw [hstep, ih (i + 1) acc]
      simp only [List.enumFrom_cons, List.filterMap_cons, hs, Option.map_none']

theorem enumFrom_success_skip_count (synth : Nat → List Char → Option (List (List Nat))) :
    ∀ (l : List (List Char)) (i : Nat),
    ((l.enumFrom i).filterMap (fun p => (synth p.1 p.2).map synthChunkAudio)).length +
      ((l.enumFrom i).filter (fun p => (synth p.1 p.2).isNone)).length = l.length := by
  intro l
  induction l with
  | nil => intro i; rfl
  | cons c rest ih =>
    intro i
    simp only [List.enumFrom_cons, List.filterMap_cons, List.filter_cons]
    cases hs : synth i c with
    | some fragments =>
      simp only [hs, Option.map_some', Option.isNone_some, Bool.false_eq_true, if_false,
        List.length_cons]
      have := ih (i + 1)
      omega
    | none =>
      simp only [hs, Option.map_none', Option.isNone_none, if_true, List.length_cons]
      have := ih (i + 1)
      omega

/-! ### The 3000-character terminator-free example input -/

theorem goodWords_replicate (n : Nat) :
    goodWords (List.replicate n ['a', 'b', 'c', 'd']) := by
  intro w hw
  rw [List.mem_replicate] at hw
  rw [hw.2]
  refine ⟨by simp, ?_⟩
  intro c hc
  simp only [List.mem_cons, List.not_mem_nil, or_false] at hc
  rcases hc with rfl | rfl | rfl | rfl <;> decide

theorem joinSpace_replicate_length (w : List Char) :
    ∀ n, (joinSpace (List.replicate (n + 1) w)).length = (n + 1) * w.length + n := by
  intro n
  induction n with
  | zero => simp [joinSpace]
  | succ m ih =>
    have hshape : List.replicate (m + 2) w = w :: List.replicate (m + 1) w :=
      List.replicate_succ w (m + 1)
    have hcons : List.replicate (m + 1) w = w :: List.replicate m w :=
      List.replicate_succ w m
    rw [hshape, hcons, joinSpace_cons_cons, ← hcons]
    rw [List.length_append, List.length_cons, ih]
    rw [Nat.succ_mul (m + 1) w.length]
    omega

theorem flatten_replicate_word_space (w : List Char) :
    ∀ n, (List.replicate (n + 1) (w ++ [' '])).flatten =
      joinSpace (List.replicate (n + 1) w) ++ [' '] := by
  intro n
  induction n with
  | zero => simp [joinSpace]
  | succ m ih =>
    have h1 : List.replicate (m + 2) (w ++ [' ']) =
        (w ++ [' ']) :: List.replicate (m + 1) (w ++ [' ']) :=
      List.replicate_succ _ _
    have h2 : List.replicate (m + 2) w = w :: List.replicate (m + 1) w :=
      List.replicate_succ w (m + 1)
    have h3 : List.replicate (m + 1) w = w :: List.replicate m w :=
      List.replicate_succ w m
    rw [h1, List.flatten_cons, ih, h2, h3, joinSpace_cons_cons, ← h3]
    simp

theorem c10Input_eq :
    c10Input = joinSpace (List.replicate 600 ['a', 'b', 'c', 'd']) ++ [' '] := by
  have h := flatten_replicate_word_space ['a', 'b', 'c', 'd'] 599
  norm_num at h
  exact h

theorem joinSpace_replicate_chars (n : Nat) (c : Char)
    (hc : c ∈ joinSpace (List.replicate n ['a', 'b', 'c', 'd'])) :
    c = 'a' ∨ c = 'b' ∨ c = 'c' ∨ c = 'd' ∨ c = ' ' := by
  rcases joinSpace_chars _ c hc with h | ⟨w, hw, hcw⟩
  · exact Or.inr (Or.inr (Or.inr (Or.inr h)))
  · rw [List.mem_replicate] at hw
    rw [hw.2] at hcw
    simp only [List.mem_cons, List.not_mem_nil, or_false] at hcw
    tauto

theorem no_term_of_abcd (chunk : List Char)
    (h : ∀ c ∈ chunk, c = 'a' ∨ c = 'b' ∨ c = 'c' ∨ c = 'd' ∨ c = ' ') :
    ∀ c ∈ chunk, c ≠ '.' ∧ c ≠ '!' ∧ c ≠ '?' := by
  intro c hc
  rcases h c hc with rfl | rfl | rfl | rfl | rfl <;>
    exact ⟨by decide, by decide, by decide⟩

theorem clean_c10Input :
    clean_text_for_tts c10Input = joinSpace (List.replicate 600 ['a', 'b', 'c', 'd']) := by
  have hgood := goodWords_replicate 600
  have h1 : replaceBad c10Input = c10Input := by
    refine replaceBad_id _ ?_
    intro c hc
    simp only [c10Input, List.mem_flatten] at hc
    obtain ⟨l, hl, hcl⟩ := hc
    rw [List.mem_replicate] at hl
    rw [hl.2] at hcl
    simp only [List.mem_cons, List.not_mem_nil, or_false] at hcl
    rcases hcl with rfl | rfl | rfl | rfl | rfl <;> decide
  have h2 : keptWords c10Input = List.replicate 600 ['a', 'b', 'c', 'd'] := by
    simp only [keptWords, h1]
    rw [pySplit_collapseWS, c10Input_eq, pySplit_append_ws _ ' ' (by decide),
      pySplit_joinSpace_good _ hgood]
    refine List.filter_eq_self.mpr ?_
    intro w hw
    rw [List.mem_replicate] at hw
    rw [hw.2]
    decide
  rw [clean_unfold, h2]
  exact pyStrip_joinSpace_good _ hgood

theorem findBestSplit_of_backScan_none (chunk_text : List Char) (chunk_size : Nat)
    (h : backScan chunk_text = none) :
    findBestSplit chunk_text chunk_size =
      if 1 < (pySplit chunk_text).length
      then (joinSpace (pySplit chunk_text).dropLast).length
      else chunk_size := by
  unfold findBestSplit
  rw [h]

theorem replicate_ne_nil' (n : Nat) (hn : n ≠ 0) (w : List Char) :
    List.replicate n w ≠ [] := by
  intro h
  have h1 := congrArg List.length h
  rw [List.length_replicate] at h1
  exact hn (by simpa using h1)

theorem splitter_c10 :
    smart_text_splitter c10Input 1800 =
      some [joinSpace (List.replicate 359 ['a', 'b', 'c', 'd']),
            joinSpace (List.replicate 241 ['a', 'b', 'c', 'd'])] := by
  set w4 : List Char := ['a', 'b', 'c', 'd'] with hw4def
  set T : List Char := joinSpace (List.replicate 600 w4) with hTdef
  set A : List Char := joinSpace (List.replicate 359 w4) with hAdef
  set B : List Char := joinSpace (List.replicate 241 w4) with hBdef
  set C : List Char := joinSpace (List.replicate 360 w4) with hCdef
  have hTlen : T.length = 2999 := by
    rw [hTdef]
    have := joinSpace_replicate_length w4 599
    norm_num [hw4def] at this
    exact this
  have hAlen : A.length = 1794 := by
    rw [hAdef]
    have := joinSpace_replicate_length w4 358
    norm_num [hw4def] at this
    exact this
  have hClen : C.length = 1799 := by
    rw [hCdef]
    have := joinSpace_replicate_length w4 359
    norm_num [hw4def] at this
    exact this
  have hTAB : T = A ++ ' ' :: B := by
    rw [hTdef, hAdef, hBdef]
    have hsplit : List.replicate 600 w4 = List.replicate 359 w4 ++ List.replicate 241 w4 := by
      rw [show (600 : Nat) = 359 + 241 by norm_num]
      exact List.replicate_add 359 241 w4
    rw [hsplit]
    exact joinSpace_append _ _ (replicate_ne_nil' 359 (by norm_num) w4)
      (replicate_ne_nil' 241 (by norm_num) w4)
  have hTCD : T = C ++ ' ' :: joinSpace (List.replicate 240 w4) := by
    rw [hTdef, hCdef]
    have hsplit : List.replicate 600 w4 = List.replicate 360 w4 ++ List.replicate 240 w4 := by
      rw [show (600 : Nat) = 360 + 240 by norm_num]
      exact List.replicate_add 360 240 w4
    rw [hsplit]
    exact joinSpace_append _ _ (replicate_ne_nil' 360 (by norm_num) w4)
      (replicate_ne_nil' 240 (by norm_num) w4)
  have hCT : T.take 1800 = C ++ [' '] := by
    rw [hTCD]
    have h1800 : (1800 : Nat) = C.length + 1 := by rw [hClen]
    rw [h1800, List.take_append]
    rfl
  have hCTchars : ∀ c ∈ C ++ [' '], c ≠ '.' ∧ c ≠ '!' ∧ c ≠ '?' := by
    refine no_term_of_abcd _ ?_
    intro c hc
    rcases List.mem_append.mp hc with h | h
    · exact joinSpace_replicate_chars 360 c (by rw [hCdef, hw4def] at h; exact h)
    · simp only [List.mem_singleton] at h
      tauto
  have hBS : backScan (C ++ [' ']) = none := backScan_no_term _ hCTchars
  have hsplitCT : pySplit (C ++ [' ']) = List.replicate 360 w4 := by
    rw [pySplit_append_ws _ ' ' (by decide), hCdef]
    exact pySplit_joinSpace_good _ (by rw [hw4def]; exact goodWords_replicate 360)
  have hFBS : findBestSplit (C ++ [' ']) 1800 = 1794 := by
    rw [findBestSplit_of_backScan_none _ _ hBS, hsplitCT]
    rw [if_pos (by rw [List.length_replicate]; norm_num)]
    have hrep : List.replicate 360 w4 = List.replicate 359 w4 ++ [w4] := by
      rw [show (360 : Nat) = 359 + 1 by norm_num]
      exact List.replicate_succ' 359 w4
    rw [hrep, List.dropLast_concat, ← hAdef, hAlen]
  have htake1794 : T.take 1794 = A := by
    rw [hTAB]
    have h1794 : (1794 : Nat) = A.length := hAlen.symm
    rw [h1794]
    exact List.take_left A (' ' :: B)
  have hgood359 : goodWords (List.replicate 359 w4) := by
    rw [hw4def]; exact goodWords_replicate 359
  have hgood241 : goodWords (List.replicate 241 w4) := by
    rw [hw4def]; exact goodWords_replicate 241
  have hstripA : pyStrip A = A := by
    rw [hAdef]
    exact pyStrip_joinSpace_good _ hgood359
  have hstripB : pyStrip B = B := by
    rw [hBdef]
    exact pyStrip_joinSpace_good _ hgood241
  have hB241 : List.replicate 241 w4 = w4 :: List.replicate 240 w4 :=
    List.replicate_succ w4 240
  have hBshape : ∃ t, B = 'a' :: t := by
    rw [hBdef, hB241]
    obtain ⟨t, ht⟩ := joinSpace_cons_shape w4 (List.replicate 240 w4)
    rw [ht, hw4def]
    exact ⟨'b' :: 'c' :: 'd' :: t, rfl⟩
  have hskip : skipWS T 1794 = 1795 := by
    simp only [skipWS]
    have hdrop : T.drop 1794 = ' ' :: B := by
      rw [hTAB]
      have h1794 : (1794 : Nat) = A.length := hAlen.symm
      rw [h1794]
      exact List.drop_left A (' ' :: B)
    rw [hdrop]
    obtain ⟨t, ht⟩ := hBshape
    rw [List.takeWhile_cons_of_pos (by decide), ht,
      List.takeWhile_cons_of_neg (by decide)]
    rfl
  have hdropB : T.drop 1795 = B := by
    rw [hTAB]
    have hassoc : A ++ ' ' :: B = (A ++ [' ']) ++ B := by simp
    rw [hassoc]
    have h1795 : (1795 : Nat) = (A ++ [' ']).length := by
      rw [List.length_append, hAlen]
      rfl
    rw [h1795]
    exact List.drop_left _ _
  have hAne : A ≠ [] := by
    rw [hAdef]
    have h359 : List.replicate 359 w4 = w4 :: List.replicate 358 w4 :=
      List.replicate_succ w4 358
    rw [h359]
    refine joinSpace_good_ne_nil w4 (List.replicate 358 w4) ?_
    rw [← h359]
    exact hgood359
  have hBne : B ≠ [] := by
    rw [hBdef, hB241]
    refine joinSpace_good_ne_nil w4 (List.replicate 240 w4) ?_
    rw [← hB241]
    exact hgood241
  simp only [smart_text_splitter, clean_c10Input]
  rw [← hw4def, ← hTdef]
  rw [if_neg (by rw [hTlen]; norm_num)]
  rw [hTlen]
  have hstep1 := splitLoop_step_mid T 1800 2999 0 []
    (by rw [hTlen]; norm_num) (by rw [hTlen]; norm_num)
  rw [hstep1]
  simp only [List.drop_zero, Nat.zero_add, List.nil_append]
  rw [hCT, hFBS, htake1794, hstripA, hskip]
  have hstep2 := splitLoop_step_last T 1800 2998 1795 [A]
    (by rw [hTlen]; norm_num) (by rw [hTlen]; norm_num)
  norm_num at hstep2
  rw [hstep2, hdropB, hstripB]
  simp only [Option.map_some']
  have hfilter : ([A, B] : List (List Char)).filter (fun c => !(pyStrip c).isEmpty) = [A, B] := by
    refine List.filter_eq_self.mpr ?_
    intro c hc
    simp only [List.mem_cons, List.not_mem_nil, or_false] at hc
    rcases hc with rfl | rfl
    · rw [hstripA]
      simp [List.isEmpty_iff, hAne]
    · rw [hstripB]
      simp [List.isEmpty_iff, hBne]
  rw [hfilter]

/-! ## The claims -/

/-- C1: for every input text and every maxChunkSize ≥ 1, the splitter
terminates and every chunk in the returned sequence has length at most
maxChunkSize. -/
theorem C1_chunk_length_bounded (text : List Char) (chunk_size : Nat)
    (hcs : 1 ≤ chunk_size) :
    ∃ res, smart_text_splitter text chunk_size = some res ∧
      ∀ c ∈ res, c.length ≤ chunk_size := by
  obtain ⟨res, h1, h2, _⟩ := splitter_result text chunk_size hcs
  exact ⟨res, h1, h2⟩

/-- C1 witness: the bound at the concrete input `"ab"` with maxChunkSize 1. -/
theorem C1_witness :
    ∃ res, smart_text_splitter ['a', 'b'] 1 = some res ∧ ∀ c ∈ res, c.length ≤ 1 :=
  C1_chunk_length_bounded ['a', 'b'] 1 (by decide)

/-- C2: when some chunks' synthesis calls fail and others succeed, the
conversion does not abort: every chunk is accounted for (successes plus
skips equal the total) and the output bytes are exactly the concatenation,
in original chunk order, of the successful chunks' audio buffers. -/
theorem C2_skip_and_continue (synth : Nat → List Char → Option (List (List Nat)))
    (chunks : List (List Char)) :
    convertOutput synth chunks =
      ((chunks.enumFrom 0).filterMap
        (fun p => (synth p.1 p.2).map synthChunkAudio)).flatten ∧
    successCount synth chunks + skippedCount synth chunks = chunks.length := by
  constructor
  · rw [convertOutput, processChunks_spec synth chunks 0 [], writeAudio_flatten]
    rw [List.nil_append]
  · rw [successCount, skippedCount, processChunks_spec synth chunks 0 []]
    rw [List.nil_append]
    have henum : chunks.enum = chunks.enumFrom 0 := rfl
    rw [henum]
    exact enumFrom_success_skip_count synth chunks 0

/-- C3 counterexample: for the input `"abcde"` with maxChunkSize 3 the code
hard-cuts mid-word into `["abc", "de"]`; joining the chunks with single
spaces and re-collapsing (and even trimming) gives `"abc de"`, which differs
from the sanitized input `"abcde"`. -/
theorem C3_counterexample :
    smart_text_splitter ['a', 'b', 'c', 'd', 'e'] 3 =
      some [['a', 'b', 'c'], ['d', 'e']] ∧
    pyStrip (collapseWS (joinSpace [['a', 'b', 'c'], ['d', 'e']])) ≠
      clean_text_for_tts ['a', 'b', 'c', 'd', 'e'] := by
  constructor
  · decide
  · decide

/-- C3 amended: for every input text and maxChunkSize ≥ 1, the splitter
returns chunks that carry exactly the non-whitespace content of the
sanitized text, in order (joining chunks with single spaces and then erasing
all whitespace yields the sanitized text with its whitespace erased); the
claimed exact reconstruction by whitespace re-collapsing fails at mid-word
hard cuts, where the join inserts a space. -/
theorem C3_amended_content_preserved (text : List Char) (chunk_size : Nat)
    (hcs : 1 ≤ chunk_size) :
    ∃ res, smart_text_splitter text chunk_size = some res ∧
      eraseWS (joinSpace res) = eraseWS (clean_text_for_tts text) := by
  obtain ⟨res, h1, _, h3⟩ := splitter_result text chunk_size hcs
  refine ⟨res, h1, ?_⟩
  rw [eraseWS_joinSpace, h3]

/-- C3 witness: content preservation at the concrete input `"abcde"`,
maxChunkSize 3. -/
theorem C3_witness :
    ∃ res, smart_text_splitter ['a', 'b', 'c', 'd', 'e'] 3 = some res ∧
      eraseWS (joinSpace res) = eraseWS (clean_text_for_tts ['a', 'b', 'c', 'd', 'e']) :=
  C3_amended_content_preserved ['a', 'b', 'c', 'd', 'e'] 3 (by decide)

/-- C4 counterexample: for a file of 2500 whitespace characters, `main`
chooses the chunking pipeline (raw length 2500 > 2000) although the
sanitized text is empty, so the sanitized-length rule stated by the claim
would choose the single-chunk path. -/
theorem C4_counterexample :
    chooseStrategy (List.replicate 2500 ' ') = Strategy.largeFile ∧
    chooseStrategySpecified (List.replicate 2500 ' ') = Strategy.smallFile := by
  constructor
  · simp only [chooseStrategy, List.length_replicate]
    rw [if_pos (by norm_num)]
  · have hclean : clean_text_for_tts (List.replicate 2500 ' ') = [] := by
      refine clean_all_ws _ ?_
      intro c hc
      rw [(List.mem_replicate.mp hc).2]
      decide
    simp only [chooseStrategySpecified, hclean, List.length_nil]
    rw [if_pos (by norm_num)]

/-- C4 amended: the orchestrator chooses its strategy by the raw file
content length, not the sanitized length: the chunking pipeline runs exactly
when the raw length exceeds 2000 characters, and the single-chunk path
(which never invokes the splitter) runs exactly when it is at most 2000. -/
theorem C4_amended_raw_length_threshold (content : List Char) :
    (chooseStrategy content = Strategy.largeFile ↔ 2000 < content.length) ∧
    (chooseStrategy content = Strategy.smallFile ↔ content.length ≤ 2000) := by
  unfold chooseStrategy
  by_cases h : 2000 < content.length
  · rw [if_pos h]
    refine ⟨⟨fun _ => h, fun _ => rfl⟩, ⟨fun hx => Strategy.noConfusion hx, ?_⟩⟩
    intro hx
    exact absurd hx (by omega)
  · rw [if_neg h]
    push_neg at h
    refine ⟨⟨fun hx => Strategy.noConfusion hx, ?_⟩, ⟨fun _ => h, fun _ => rfl⟩⟩
    intro hx
    exact absurd hx (by omega)

/-- C5 counterexample: for the whitespace-only input `" "` with
maxChunkSize 1, the splitter takes the early-return path and yields the
single chunk `""`, which is empty after trimming — the early path does not
apply the empty-chunk filter. -/
theorem C5_counterexample :
    smart_text_splitter [' '] 1 = some [[]] ∧ pyStrip ([] : List Char) = [] := by
  constructor
  · decide
  · rfl

/-- C5 amended: for every input whose sanitized text is non-empty and every
maxChunkSize ≥ 1, every chunk returned by the splitter is non-empty after
trimming (and in particular non-empty); when the sanitized text is empty the
splitter instead returns the singleton sequence containing the empty
string. -/
theorem C5_amended_nonempty_chunks (text : List Char) (chunk_size : Nat)
    (hcs : 1 ≤ chunk_size) (hne : clean_text_for_tts text ≠ []) :
    ∃ res, smart_text_splitter text chunk_size = some res ∧
      ∀ c ∈ res, pyStrip c ≠ [] ∧ c ≠ [] := by
  by_cases hle : (clean_text_for_tts text).length ≤ chunk_size
  · refine ⟨[clean_text_for_tts text], ?_, ?_⟩
    · simp only [smart_text_splitter, if_pos hle]
    · intro c hc
      rw [List.mem_singleton.mp hc]
      refine ⟨?_, hne⟩
      rw [clean_strip_invariant]
      exact hne
  · obtain ⟨res0, hres0, -, -⟩ := splitLoop_spec (clean_text_for_tts text) chunk_size hcs
      ((clean_text_for_tts text).length + 1) 0 [] (by omega)
    refine ⟨res0.filter (fun c => !(pyStrip c).isEmpty), ?_, ?_⟩
    · simp only [smart_text_splitter, if_neg hle]
      rw [hres0]
      rfl
    · intro c hc
      have hp := List.of_mem_filter hc
      have hps : pyStrip c ≠ [] := by
        intro hnil
        rw [hnil] at hp
        simp at hp
      refine ⟨hps, ?_⟩
      intro hcnil
      apply hps
      rw [hcnil]
      rfl

/-- C5 witness: non-empty chunks at the concrete input `"hi"`,
maxChunkSize 1. -/
theorem C5_witness :
    ∃ res, smart_text_splitter ['h', 'i'] 1 = some res ∧
      ∀ c ∈ res, pyStrip c ≠ [] ∧ c ≠ [] :=
  C5_amended_nonempty_chunks ['h', 'i'] 1 (by decide) (by decide)

/-- C6: the sanitizer is idempotent: cleaning already-cleaned text changes
nothing. -/
theorem C6_sanitizer_idempotent (x : List Char) :
    clean_text_for_tts (clean_text_for_tts x) = clean_text_for_tts x := by
  have hK := keptWords_good x
  have hjoin := clean_eq_join x
  have h1 : replaceBad (clean_text_for_tts x) = clean_text_for_tts x := by
    refine replaceBad_id _ ?_
    intro c hc
    rw [hjoin] at hc
    exact joinSpace_keptWords_chars x c hc
  have h2 : keptWords (clean_text_for_tts x) = keptWords x := by
    simp only [keptWords, h1]
    rw [pySplit_collapseWS, hjoin, pySplit_joinSpace_good _ hK]
    refine List.filter_eq_self.mpr ?_
    intro w hw
    simp only [keptWords, List.mem_filter] at hw
    exact hw.2
  rw [clean_unfold (clean_text_for_tts x), h2, ← clean_unfold x]

/-- C7: for every input text whose length is at most maxChunkSize
(maxChunkSize ≥ 1), the splitter returns exactly one chunk, equal to the
trimmed sanitized input. -/
theorem C7_small_input_single_chunk (text : List Char) (chunk_size : Nat)
    (_hcs : 1 ≤ chunk_size) (hlen : text.length ≤ chunk_size) :
    smart_text_splitter text chunk_size = some [pyStrip (clean_text_for_tts text)] := by
  have hle : (clean_text_for_tts text).length ≤ chunk_size :=
    Nat.le_trans (clean_length_le text) hlen
  simp only [smart_text_splitter, if_pos hle]
  rw [clean_strip_invariant]

/-- C7 witness: the single chunk at the concrete input `"hi"`,
maxChunkSize 5. -/
theorem C7_witness :
    smart_text_splitter ['h', 'i'] 5 = some [pyStrip (clean_text_for_tts ['h', 'i'])] :=
  C7_small_input_single_chunk ['h', 'i'] 5 (by decide) (by decide)

/-- C8 counterexample: a single 100-character token is not hard-cut into two
50-character chunks: the sanitizer drops every token longer than 50
characters, so the splitter returns the single empty chunk instead. -/
theorem C8_counterexample :
    smart_text_splitter (List.replicate 100 'a') 50 = some [[]] ∧
    ([[]] : List (List Char)) ≠ [List.replicate 50 'a', List.replicate 50 'a'] := by
  constructor
  · decide
  · decide

/-- C8 amended: a single 100-character token is removed by sanitization
(its length exceeds the 50-character token limit), so splitting it with
maxChunkSize 50 yields the singleton empty chunk; an oversized token that
survives sanitization — a single 40-character token with maxChunkSize 20 —
is hard-cut at exactly maxChunkSize boundaries into two 20-character
chunks. -/
theorem C8_amended_hard_cut :
    smart_text_splitter (List.replicate 100 'a') 50 = some [[]] ∧
    smart_text_splitter (List.replicate 40 'a') 20 =
      some [List.replicate 20 'a', List.replicate 20 'a'] := by
  constructor
  · decide
  · decide

/-- C9 counterexample: for whitespace-only text the splitter neither yields
an empty sequence nor rejects the call: it returns normally with the
one-element sequence containing the empty string. -/
theorem C9_counterexample :
    smart_text_splitter [' '] 1800 = some [[]] ∧
    (some [[]] : Option (List (List Char))) ≠ some [] ∧
    ([[]] : List (List Char)).length = 1 := by
  refine ⟨by decide, by decide, rfl⟩

/-- C9 amended: for text containing only whitespace the splitter terminates
for every maxChunkSize but returns the singleton sequence containing the
empty string (not an empty sequence, and no rejection occurs); for
maxChunkSize 0 and input whose sanitized text is non-empty (such as `"ab"`)
the splitting loop makes no progress and never terminates, for any amount of
fuel, so the splitter diverges instead of failing fast. -/
theorem C9_amended_degenerate_inputs :
    (∀ (text : List Char) (chunk_size : Nat), (∀ c ∈ text, c.isWhitespace = true) →
      smart_text_splitter text chunk_size = some [[]]) ∧
    (∀ (fuel : Nat) (acc : List (List Char)), splitLoop ['a', 'b'] 0 fuel 0 acc = none) ∧
    smart_text_splitter ['a', 'b'] 0 = none :=
  ⟨fun text cs h => splitter_all_ws text cs h, splitLoop_ab_zero, splitter_ab_zero⟩

/-- C9 witness: the degenerate behaviours at concrete inputs: `" "` with
maxChunkSize 5, and `"ab"` with maxChunkSize 0 and fuel 7. -/
theorem C9_witness :
    smart_text_splitter [' '] 5 = some [[]] ∧
    splitLoop ['a', 'b'] 0 7 0 [] = none ∧
    smart_text_splitter ['a', 'b'] 0 = none :=
  ⟨C9_amended_degenerate_inputs.1 [' '] 5 (by decide),
   C9_amended_degenerate_inputs.2.1 7 [],
   C9_amended_degenerate_inputs.2.2⟩

/-- C10 counterexample: a 3000-character input with no sentence terminators
need not yield 2 chunks: a single 3000-character token is dropped entirely
by the sanitizer (token length > 50), so the splitter returns one empty
chunk, not two. -/
theorem C10_counterexample :
    smart_text_splitter (List.replicate 3000 'a') 1800 = some [[]] ∧
    ([[]] : List (List Char)).length ≠ 2 := by
  constructor
  · have hclean : clean_text_for_tts (List.replicate 3000 'a') = [] := by
      rw [clean_unfold]
      have h1 : replaceBad (List.replicate 3000 'a') = List.replicate 3000 'a' := by
        refine replaceBad_id _ ?_
        intro c hc
        rw [(List.mem_replicate.mp hc).2]
        decide
      have h2 : pySplit (collapseWS (List.replicate 3000 'a')) =
          [List.replicate 3000 'a'] := by
        rw [pySplit_collapseWS]
        refine pySplit_all_nonws _ ?_ ?_
        · intro hnil
          have h3 := congrArg List.length hnil
          rw [List.length_replicate] at h3
          exact absurd h3 (by norm_num)
        · intro c hc
          rw [(List.mem_replicate.mp hc).2]
          decide
      simp only [keptWords, h1, h2]
      rw [List.filter_cons_of_neg ?_, List.filter_nil]
      · rfl
      · simp only [List.length_replicate]
        norm_num
    simp only [smart_text_splitter, hclean, List.length_nil]
    rw [if_pos (Nat.zero_le 1800)]
  · decide

/-- C10 amended: for a 3000-character terminator-free input that survives
sanitization — `"abcd "` repeated 600 times — with maxChunkSize 1800, the
splitter yields exactly 2 chunks: the backward terminator scan finds
nothing, so the first window is split at the last word boundary inside it
(a 1794-character chunk of complete words, near the window's end, not its
midpoint), and the remaining 1204 characters form the second chunk; a
3000-character input that is a single token is instead dropped by the
sanitizer. -/
theorem C10_amended_two_chunks :
    c10Input.length = 3000 ∧
    (∀ c ∈ c10Input, c ≠ '.' ∧ c ≠ '!' ∧ c ≠ '?') ∧
    smart_text_splitter c10Input 1800 =
      some [joinSpace (List.replicate 359 ['a', 'b', 'c', 'd']),
            joinSpace (List.replicate 241 ['a', 'b', 'c', 'd'])] ∧
    (joinSpace (List.replicate 359 ['a', 'b', 'c', 'd'])).length = 1794 ∧
    (joinSpace (List.replicate 241 ['a', 'b', 'c', 'd'])).length = 1204 := by
  refine ⟨?_, ?_, splitter_c10, ?_, ?_⟩
  · show ((List.replicate 600 ['a', 'b', 'c', 'd', ' ']).flatten).length = 3000
    rw [List.length_flatten, List.map_replicate]
    rw [show (['a', 'b', 'c', 'd', ' '] : List Char).length = 5 from rfl]
    rw [List.sum_replicate, smul_eq_mul]
  · intro c hc
    rw [c10Input_eq] at hc
    rcases List.mem_append.mp hc with h | h
    · exact no_term_of_abcd _ (fun d hd => joinSpace_replicate_chars 600 d hd) c h
    · simp only [List.mem_singleton] at h
      subst h
      exact ⟨by decide, by decide, by decide⟩
  · have h := joinSpace_replicate_length ['a', 'b', 'c', 'd'] 358
    norm_num at h
    exact h
  · have h := joinSpace_replicate_length ['a', 'b', 'c', 'd'] 240
    norm_num at h
    exact h

end Audiobook
